import Mathlib

/-!
# Verification of the door/entrance detector (`backend/door_detection.py`)

Shallow embedding of the door-detection pipeline.  Machine floats are
modelled as exact rationals, pixel coordinates as integers.  The parts of
the pipeline performed by the OpenCV library (image decoding, k-means
clustering, connected-component extraction, Canny/Hough line detection)
are external to the repository's code; they enter the embedding as
abstract inputs:

* each connected component of a non-dominant color cluster is given by its
  `CompStats` (bounding box and pixel area in downscaled coordinates)
  together with the normalized color distance of its cluster to the
  dominant cluster (characterized by `IsColorDist`, since the Euclidean
  norm itself is irrational);
* the probabilistic Hough transform's output is a list of integer
  `Segment`s.

Everything downstream of those library calls — the per-component filters,
the geometric scorer, the vertical-line pairing, the score sort, the
greedy suppression, and the final detection filter — is translated
directly from the source.
-/

namespace DoorDetect

set_option maxHeartbeats 1600000

/-- A candidate region `(x, y, w, h, score)` as appended to the candidate
pool (`_find_door_regions` / `_add_line_candidates`). -/
structure Candidate where
  x : ℤ
  y : ℤ
  w : ℤ
  h : ℤ
  score : ℚ
deriving DecidableEq, Repr

/-- Python `int()` applied to a rational: truncation toward zero. -/
def pyInt (q : ℚ) : ℤ :=
  if 0 ≤ q then ⌊q⌋ else ⌈q⌉

/-- Round a rational to the nearest integer, ties to even
(Python's `round`). -/
def roundHalfEven (q : ℚ) : ℤ :=
  let f := ⌊q⌋
  let frac := q - (f : ℚ)
  if frac < 1/2 then f
  else if 1/2 < frac then f + 1
  else if f % 2 = 0 then f else f + 1

/-- Python `round(q, 2)`: round to two decimal places, ties to even. -/
def round2 (q : ℚ) : ℚ :=
  (roundHalfEven (q * 100) : ℚ) / 100

/-- The downscale factor `scale = min(1.0, 300.0 / max(h, w))`
(`_find_door_regions`, line 90). -/
def scaleOf (w h : ℕ) : ℚ :=
  min 1 (300 / (max h w : ℚ))

/-- Shallow embedding of `_score_candidate` (lines 21-75): geometric
"door-likeness" score of a candidate box against image size `(w, h)`. -/
def scoreCandidate (ox oy ocw och : ℤ) (realArea solidity colorDist : ℚ)
    (w h : ℕ) : ℚ :=
  let bottomEdge : ℤ := oy + och
  let centerX : ℚ := (ox : ℚ) + (ocw : ℚ) / 2
  let aspect : ℚ := if 0 < ocw then (och : ℚ) / (ocw : ℚ) else 0
  let bottomRatio : ℚ := (bottomEdge : ℚ) / (h : ℚ)
  let topRatio : ℚ := (oy : ℚ) / (h : ℚ)
  if bottomRatio < 45/100 then 0
  else if topRatio < 8/100 then 0
  else
    let shapeScore : ℚ :=
      if 13/10 ≤ aspect then 1
      else if 8/10 ≤ aspect then 7/10
      else if 1/2 ≤ aspect then 2/5
      else 1/10
    let horizScore : ℚ := 1 - |centerX - (w : ℚ) / 2| / ((w : ℚ) / 2)
    let centerY : ℚ := (oy : ℚ) + (och : ℚ) / 2
    let vertCenterRatio : ℚ := centerY / (h : ℚ)
    let vertScore : ℚ :=
      if 35/100 ≤ vertCenterRatio ∧ vertCenterRatio ≤ 70/100 then 1
      else if 70/100 < vertCenterRatio then 3/5
      else 3/10
    let sizeScore : ℚ := min (realArea / ((w : ℚ) * (h : ℚ) * (3/100))) 1
    shapeScore * (3/10) + horizScore * (1/4) + vertScore * (3/20)
      + sizeScore * (1/10) + colorDist * (1/10) + solidity * (1/10)

/-- Connected-component statistics as returned by
`cv2.connectedComponentsWithStats` (downscaled coordinates):
bounding box `(x, y, cw, ch)` and pixel `area`. -/
structure CompStats where
  x : ℕ
  y : ℕ
  cw : ℕ
  ch : ℕ
  area : ℕ
deriving DecidableEq, Repr

/-- `solidity = cc_area / (cw * ch) if (cw * ch) > 0 else 0` (line 155),
on the downscaled component stats. -/
def compSolidity (st : CompStats) : ℚ :=
  if 0 < st.cw * st.ch then (st.area : ℚ) / ((st.cw * st.ch : ℕ) : ℚ) else 0

/-- The aspect filter of lines 144-153: at ground level (bottom edge below
the image's midline) wider boxes are allowed. -/
def aspectFails (h : ℕ) (oy ocw och : ℤ) : Bool :=
  let aspect : ℚ := if 0 < ocw then (och : ℚ) / (ocw : ℚ) else 0
  let bottomEdge : ℚ := ((oy + och : ℤ) : ℚ) / (h : ℚ)
  if 1/2 < bottomEdge then decide (aspect < 2/5 ∨ 5 < aspect)
  else decide (aspect < 11/10 ∨ 5 < aspect)

/-- Body of the per-component loop of `_find_door_regions`
(lines 125-170): the cascade of geometric filters followed by scoring.
`colorDist` is the normalized distance of the component's cluster
centroid to the dominant color (computed externally, see `IsColorDist`).
Returns the candidate appended to the pool, or `none` when filtered. -/
def processComponent (w h : ℕ) (scale : ℚ) (colorDist : ℚ)
    (st : CompStats) : Option Candidate :=
  let minArea : ℚ := (w : ℚ) * (h : ℚ) * (1/100)
  let maxArea : ℚ := (w : ℚ) * (h : ℚ) * (1/2)
  let realArea : ℚ := (st.area : ℚ) / (scale * scale)
  if realArea < minArea ∨ maxArea < realArea then none
  else
    let ox := pyInt ((st.x : ℚ) / scale)
    let oy := pyInt ((st.y : ℚ) / scale)
    let ocw := pyInt ((st.cw : ℚ) / scale)
    let och := pyInt ((st.ch : ℚ) / scale)
    if ocw < 10 ∨ och < 15 then none
    else if aspectFails h oy ocw och then none
    else if compSolidity st < 35/100 then none
    else if colorDist < 1/10 then none
    else some ⟨ox, oy, ocw, och,
      scoreCandidate ox oy ocw och realArea (compSolidity st) colorDist w h⟩

/-- The color-based candidate generator: one `(colorDist, stats)` pair per
connected component, in loop order over `k ∈ {4,6,8}`, clusters and
components (the clustering itself is the external `cv2.kmeans`). -/
def colorCandidates (w h : ℕ) (scale : ℚ)
    (comps : List (ℚ × CompStats)) : List Candidate :=
  comps.filterMap fun p => processComponent w h scale p.1 p.2

/-- A Hough line segment `(x1, y1, x2, y2)` in integer pixel coordinates. -/
abbrev Segment := ℤ × ℤ × ℤ × ℤ

/-- A near-vertical segment collapsed to `(cx, top, bot)`
(`_add_line_candidates`, lines 216-224). -/
structure Vertical where
  cx : ℚ
  top : ℤ
  bot : ℤ
deriving DecidableEq, Repr

/-- The near-vertical test `abs(degrees(atan2(dx, dy))) < 15`, rationalized:
for `dy > 0` the angle condition is `|dx| < tan 15° · dy` with
`tan 15° = 2 - √3`, which (squaring, both sides positive) is
`0 < 2·dy - |dx|` and `3·dy² < (2·dy - |dx|)²`; for `dy < 0` the absolute
angle exceeds 90°, and for `dy = 0` it is 90° unless `dx = 0` too
(`atan2(0,0) = 0`). -/
def nearVertical (dx dy : ℤ) : Bool :=
  (decide (dy = 0) && decide (dx = 0)) ||
    (decide (0 < dy) && decide (|dx| < 2 * dy)
      && decide (3 * dy ^ 2 < (2 * dy - |dx|) ^ 2))

/-- Filter a Hough segment down to a `Vertical` (lines 217-224). -/
def toVertical (s : Segment) : Option Vertical :=
  if nearVertical (s.2.2.1 - s.1) (s.2.2.2 - s.2.1) then
    some ⟨((s.1 : ℚ) + (s.2.2.1 : ℚ)) / 2, min s.2.1 s.2.2.2, max s.2.1 s.2.2.2⟩
  else none

/-- `verticals.sort(key=lambda v: v[0])`: stable ascending sort by `cx`.
Python's sort is stable, and any two stable sorts with the same key agree
on every input, so the (stable) insertion sort models it exactly. -/
def sortVerticals (vs : List Vertical) : List Vertical :=
  vs.insertionSort fun a b => a.cx ≤ b.cx

/-- All ordered pairs `(v_i, v_j)` with `i < j`, in the double-loop order of
lines 229-230. -/
def pairsAfter : List Vertical → List (Vertical × Vertical)
  | [] => []
  | v :: rest => (rest.map fun u => (v, u)) ++ pairsAfter rest

/-- Body of the pairing loop of `_add_line_candidates` (lines 231-256):
the gap/span/aspect/area/bottom filters and the line-pair score. -/
def processPair (w h : ℕ) (minArea : ℚ) (l r : Vertical) : Option Candidate :=
  let gap : ℚ := r.cx - l.cx
  if gap < (w : ℚ) * (8/100) ∨ (w : ℚ) * (45/100) < gap then none
  else
    let top : ℤ := min l.top r.top
    let bot : ℤ := max l.bot r.bot
    let height : ℤ := bot - top
    if (height : ℚ) < (h : ℚ) * (1/4) then none
    else
      let aspect : ℚ := (height : ℚ) / gap
      if aspect < 12/10 ∨ 45/10 < aspect then none
      else
        let area : ℚ := gap * (height : ℚ)
        if area < minArea then none
        else
          let cx : ℚ := (l.cx + r.cx) / 2
          let botRatio : ℚ := (bot : ℚ) / (h : ℚ)
          if botRatio < 1/2 then none
          else
            let groundScore : ℚ := botRatio
            let horizScore : ℚ := 1 - |cx - (w : ℚ) / 2| / ((w : ℚ) / 2)
            some ⟨pyInt l.cx, top, pyInt gap, height,
              groundScore * (45/100) + horizScore * (35/100) + 2/10⟩

/-- The line-based candidate generator `_add_line_candidates`
(lines 198-256), as a function of the Hough output. -/
def addLineCandidates (w h : ℕ) (minArea : ℚ) (segs : List Segment) :
    List Candidate :=
  (pairsAfter (sortVerticals (segs.filterMap toVertical))).filterMap
    fun p => processPair w h minArea p.1 p.2

/-- Overlap test of the NMS loop (lines 182-190): intersection over the
smaller of the two box areas exceeds `0.4`. -/
def overlapsKept (c k : Candidate) : Bool :=
  let ix1 := max c.x k.x
  let iy1 := max c.y k.y
  let ix2 := min (c.x + c.w) (k.x + k.w)
  let iy2 := min (c.y + c.h) (k.y + k.h)
  if ix1 < ix2 ∧ iy1 < iy2 then
    decide (2/5 <
      (((ix2 - ix1) * (iy2 - iy1) : ℤ) : ℚ) /
        ((min (c.w * c.h) (k.w * k.h) : ℤ) : ℚ))
  else false

/-- Greedy NMS loop (lines 179-192), with the explicit `kept` accumulator
of the source. -/
def nmsGo : List Candidate → List Candidate → List Candidate
  | kept, [] => kept
  | kept, c :: rest =>
    if kept.any fun k => overlapsKept c k then nmsGo kept rest
    else nmsGo (kept ++ [c]) rest

/-- `candidates.sort(key=lambda c: c[4], reverse=True)`: stable descending
sort by score (line 176).  Python's sort is stable (also with
`reverse=True`), and any two stable sorts with the same key agree on every
input, so the (stable) insertion sort with the flipped non-strict relation
models it exactly. -/
def sortByScoreDesc (cs : List Candidate) : List Candidate :=
  cs.insertionSort fun a b => b.score ≤ a.score

/-- The candidate suppressor (lines 176-195): sort descending by score,
greedy NMS, keep only the single best survivor. -/
def suppress (pool : List Candidate) : List Candidate :=
  (nmsGo [] (sortByScoreDesc pool)).take 1

/-- `_find_door_regions` (lines 78-195) as a function of the abstract
clustering/Hough outputs: merge both generators' candidates and suppress. -/
def findDoorRegions (w h : ℕ) (comps : List (ℚ × CompStats))
    (segs : List Segment) : List Candidate :=
  let minArea : ℚ := (w : ℚ) * (h : ℚ) * (1/100)
  suppress (colorCandidates w h (scaleOf w h) comps
    ++ addLineCandidates w h minArea segs)

/-- The output bounding box `{xmin, ymin, xmax, ymax}`. -/
structure BBox where
  xmin : ℤ
  ymin : ℤ
  xmax : ℤ
  ymax : ℤ
deriving DecidableEq, Repr

/-- One entry of the `detections` list built by `detect_doors`. -/
structure DetectionRecord where
  id : String
  label : String
  confidence : ℚ
  bbox : BBox
deriving DecidableEq, Repr

/-- The dictionary returned by `detect_doors`.  The wall-clock
`processing_time_ms` field is real time, outside the embedding. -/
structure DetectionResult where
  image_width : ℕ
  image_height : ℕ
  detections : List DetectionRecord
deriving DecidableEq, Repr

/-- Body of the final filter loop of `detect_doors` (lines 271-294) for the
region at enumeration index `i`: score threshold, clamping to the image,
area/height plausibility filters, and record construction. -/
def emitOne (w h : ℕ) (i : ℕ) (c : Candidate) : Option DetectionRecord :=
  if c.score < 62/100 then none
  else
    let x := max 0 c.x
    let y := max 0 c.y
    let cw := min c.w ((w : ℤ) - x)
    let ch := min c.h ((h : ℤ) - y)
    let areaRatio : ℚ := ((cw * ch : ℤ) : ℚ) / (((w : ℕ) * (h : ℕ) : ℕ) : ℚ)
    let heightRatio : ℚ := (ch : ℚ) / (h : ℚ)
    if 3/10 < areaRatio ∨ 55/100 < heightRatio then none
    else some
      { id := "det_" ++ toString i
        label := "Entrance"
        confidence := round2 (min (c.score * (12/10)) (99/100))
        bbox := ⟨x, y, x + cw, y + ch⟩ }

/-- The final filter loop over `enumerate(regions)` (lines 270-294). -/
def emitDetections (w h : ℕ) (regions : List Candidate) :
    List DetectionRecord :=
  regions.enum.filterMap fun p => emitOne w h p.1 p.2

/-- `detect_doors` (lines 259-303) after a successful decode, as a function
of image size and the abstract clustering/Hough outputs. -/
def detectDoors (w h : ℕ) (comps : List (ℚ × CompStats))
    (segs : List Segment) : DetectionResult :=
  { image_width := w
    image_height := h
    detections := emitDetections w h (findDoorRegions w h comps segs) }

/-- What `cv2.imdecode` recovers from the input bytes when it succeeds:
image size plus the abstract clustering/Hough outputs determined by the
decoded pixels.  `none` models `imdecode` returning `None`. -/
structure DecodedInput where
  w : ℕ
  h : ℕ
  comps : List (ℚ × CompStats)
  segs : List Segment

/-- The error kinds of the detector.  `decodeFailure` is the
`ValueError("Failed to decode image")` of `_decode_image` (line 16);
`internalError` is an exception escaping from an external cv2 call inside
the pipeline (a `cv2.error`), distinct from a decode failure. -/
inductive DetectError where
  | decodeFailure
  | internalError
deriving DecidableEq, Repr

/-- Preconditions of the external cv2 calls inside `_find_door_regions`
that the module does not guard, so they raise `cv2.error` on small
decodable images: `cv2.resize` (line 92) needs both downscaled dimensions
`sw = int(w*scale)`, `sh = int(h*scale)` to be nonzero (a zero `sh`
happens whenever `w > 300*h`, and symmetrically), and `cv2.kmeans`
(line 101) needs at least `k = 8` samples, i.e. `sw*sh ≥ 8`.  Both
violations amount to `sw*sh < 8`. -/
def cvInternalFailure (w h : ℕ) : Bool :=
  decide (pyInt ((w : ℚ) * scaleOf w h) * pyInt ((h : ℚ) * scaleOf w h) < 8)

/-- `detect_doors` from raw bytes: `_decode_image` either fails (the bytes
do not decode) or yields a pixel buffer; an image whose downscaled pixel
count violates the cv2 preconditions then raises an internal (non-decode)
error inside `_find_door_regions`; otherwise the pipeline computes a
complete result. -/
def detectDoorsFromBytes (decoded : Option DecodedInput) :
    Except DetectError DetectionResult :=
  match decoded with
  | none => Except.error DetectError.decodeFailure
  | some d =>
    if cvInternalFailure d.w d.h then Except.error DetectError.internalError
    else Except.ok (detectDoors d.w d.h d.comps d.segs)

/-- `color_dist = np.linalg.norm(cluster - dominant) / 255` (line 160),
characterized without the irrational square root: `d` is the nonnegative
number whose square is the squared Euclidean distance between the two
(B,G,R) centroids divided by `255²`. -/
def IsColorDist (c₁ c₂ : ℚ × ℚ × ℚ) (d : ℚ) : Prop :=
  0 ≤ d ∧ d ^ 2 = ((c₁.1 - c₂.1) ^ 2 + (c₁.2.1 - c₂.2.1) ^ 2
    + (c₁.2.2 - c₂.2.2) ^ 2) / 255 ^ 2

/-- A k-means centroid is a convex combination of pixel colors, so each of
its three channels lies in `[0, 255]`. -/
def ColorInRange (c : ℚ × ℚ × ℚ) : Prop :=
  0 ≤ c.1 ∧ c.1 ≤ 255 ∧ 0 ≤ c.2.1 ∧ c.2.1 ≤ 255 ∧ 0 ≤ c.2.2 ∧ c.2.2 ≤ 255

/-- Facts guaranteed by `cv2.connectedComponentsWithStats` about each
component: its bounding box lies inside the downscaled image
(`sw = int(w*scale)`, `sh = int(h*scale)`, line 91) and its pixel area is
at most its bounding-box area. -/
def CompOK (w h : ℕ) (st : CompStats) : Prop :=
  (st.x : ℤ) + st.cw ≤ pyInt ((w : ℚ) * scaleOf w h) ∧
  (st.y : ℤ) + st.ch ≤ pyInt ((h : ℚ) * scaleOf w h) ∧
  st.area ≤ st.cw * st.ch

/-- Facts guaranteed by `cv2.HoughLinesP`: both endpoints of a returned
segment lie inside the `w × h` image. -/
def SegOK (w h : ℕ) (s : Segment) : Prop :=
  0 ≤ s.1 ∧ s.1 ≤ (w : ℤ) - 1 ∧ 0 ≤ s.2.1 ∧ s.2.1 ≤ (h : ℤ) - 1 ∧
  0 ≤ s.2.2.1 ∧ s.2.2.1 ≤ (w : ℤ) - 1 ∧ 0 ≤ s.2.2.2 ∧ s.2.2.2 ≤ (h : ℤ) - 1

/-! ## General lemmas about the embedding -/

theorem pyInt_of_nonneg {q : ℚ} (h : 0 ≤ q) : pyInt q = ⌊q⌋ := if_pos h

theorem le_roundHalfEven (q : ℚ) : ⌊q⌋ ≤ roundHalfEven q := by
  simp only [roundHalfEven]
  split_ifs <;> omega

theorem roundHalfEven_le (q : ℚ) : roundHalfEven q ≤ ⌊q⌋ + 1 := by
  simp only [roundHalfEven]
  split_ifs <;> omega

theorem round2_lower {q b : ℚ} (hb : (b * 100 : ℚ) = ((⌊b * 100⌋ : ℤ) : ℚ))
    (h : b ≤ q) : b ≤ round2 q := by
  unfold round2
  have h1 : (⌊b * 100⌋ : ℤ) ≤ ⌊q * 100⌋ := by
    apply Int.le_floor.mpr
    rw [← hb]
    linarith
  have h2 : (⌊q * 100⌋ : ℤ) ≤ roundHalfEven (q * 100) := le_roundHalfEven _
  have : ((⌊b * 100⌋ : ℤ) : ℚ) ≤ ((roundHalfEven (q * 100) : ℤ) : ℚ) := by
    exact_mod_cast le_trans h1 h2
  rw [← hb] at this
  linarith

theorem mem_nmsGo {c : Candidate} :
    ∀ {kept l : List Candidate}, c ∈ nmsGo kept l → c ∈ kept ∨ c ∈ l := by
  intro kept l
  induction l generalizing kept with
  | nil =>
    intro hmem
    simp only [nmsGo] at hmem
    exact Or.inl hmem
  | cons a t ih =>
    intro hmem
    simp only [nmsGo] at hmem
    split at hmem
    · rcases ih hmem with h' | h'
      · exact Or.inl h'
      · exact Or.inr (List.mem_cons_of_mem _ h')
    · rcases ih hmem with h' | h'
      · rcases List.mem_append.mp h' with h'' | h''
        · exact Or.inl h''
        · simp only [List.mem_singleton] at h''
          exact Or.inr (h'' ▸ List.mem_cons_self _ _)
      · exact Or.inr (List.mem_cons_of_mem _ h')

theorem mem_suppress {pool : List Candidate} {c : Candidate}
    (h : c ∈ suppress pool) : c ∈ pool := by
  unfold suppress at h
  have h1 : c ∈ nmsGo [] (sortByScoreDesc pool) := List.mem_of_mem_take h
  rcases mem_nmsGo h1 with h2 | h2
  · cases h2
  · unfold sortByScoreDesc at h2
    exact (List.perm_insertionSort _ pool).subset h2

theorem pairsAfter_rel {R : Vertical → Vertical → Prop} :
    ∀ {l : List Vertical}, l.Pairwise R →
      ∀ {p : Vertical × Vertical}, p ∈ pairsAfter l → R p.1 p.2 := by
  intro l
  induction l with
  | nil =>
    intro _ p hp
    simp [pairsAfter] at hp
  | cons v t ih =>
    intro hl p hp
    simp only [pairsAfter] at hp
    rcases List.mem_append.mp hp with hmem | hmem
    · obtain ⟨u, hu, rfl⟩ := List.mem_map.mp hmem
      exact (List.pairwise_cons.mp hl).1 u hu
    · exact ih (List.pairwise_cons.mp hl).2 hmem

theorem pairsAfter_mem {p : Vertical × Vertical} :
    ∀ {l : List Vertical}, p ∈ pairsAfter l → p.1 ∈ l ∧ p.2 ∈ l := by
  intro l
  induction l with
  | nil => intro hp; simp [pairsAfter] at hp
  | cons v t ih =>
    intro hp
    simp only [pairsAfter] at hp
    rcases List.mem_append.mp hp with hmem | hmem
    · obtain ⟨u, hu, rfl⟩ := List.mem_map.mp hmem
      exact ⟨List.mem_cons_self _ _, List.mem_cons_of_mem _ hu⟩
    · obtain ⟨h1, h2⟩ := ih hmem
      exact ⟨List.mem_cons_of_mem _ h1, List.mem_cons_of_mem _ h2⟩

theorem mem_emitDetections {w h : ℕ} {regions : List Candidate}
    {r : DetectionRecord} (hr : r ∈ emitDetections w h regions) :
    ∃ i c, c ∈ regions ∧ emitOne w h i c = some r := by
  unfold emitDetections at hr
  obtain ⟨⟨i, c⟩, hm, he⟩ := List.mem_filterMap.mp hr
  refine ⟨i, c, ?_, he⟩
  have := List.mem_enum_iff_getElem?.mp hm
  exact List.getElem?_mem this

theorem emitOne_some_elim {w h : ℕ} {i : ℕ} {c : Candidate}
    {r : DetectionRecord} (hr : emitOne w h i c = some r) :
    62/100 ≤ c.score ∧
    r.id = "det_" ++ toString i ∧
    r.label = "Entrance" ∧
    r.confidence = round2 (min (c.score * (12/10)) (99/100)) ∧
    r.bbox = ⟨max 0 c.x, max 0 c.y,
      max 0 c.x + min c.w ((w : ℤ) - max 0 c.x),
      max 0 c.y + min c.h ((h : ℤ) - max 0 c.y)⟩ ∧
    ((min c.w ((w : ℤ) - max 0 c.x) * min c.h ((h : ℤ) - max 0 c.y) : ℤ) : ℚ)
        / ((w * h : ℕ) : ℚ) ≤ 3/10 ∧
    ((min c.h ((h : ℤ) - max 0 c.y) : ℤ) : ℚ) / (h : ℚ) ≤ 55/100 := by
  simp only [emitOne] at hr
  split_ifs at hr with h1 h2
  cases hr
  exact ⟨not_lt.mp h1, rfl, rfl, rfl, rfl,
    not_lt.mp (not_or.mp h2).1, not_lt.mp (not_or.mp h2).2⟩

theorem detectDoors_detections (w h : ℕ) (comps : List (ℚ × CompStats))
    (segs : List Segment) :
    (detectDoors w h comps segs).detections
      = emitDetections w h (findDoorRegions w h comps segs) := rfl

theorem findDoorRegions_def (w h : ℕ) (comps : List (ℚ × CompStats))
    (segs : List Segment) :
    findDoorRegions w h comps segs
      = suppress (colorCandidates w h (scaleOf w h) comps
          ++ addLineCandidates w h ((w : ℚ) * (h : ℚ) * (1/100)) segs) := rfl

theorem suppress_length_le (pool : List Candidate) :
    (suppress pool).length ≤ 1 :=
  List.length_take_le _ _

/-- Evaluation of the pipeline on a sample input: one color component on a
300×300 image (`scale = 1`), box `(125, 60)`–`(175, 180)`, full solidity,
color distance `20/17`; it survives every filter and is emitted. -/
theorem demoDetections :
    (detectDoors 300 300 [(20/17, ⟨125, 60, 50, 120, 6000⟩)] []).detections
      = [⟨"det_0", "Entrance", 99/100, ⟨125, 60, 175, 180⟩⟩] := by
  have hs : scaleOf 300 300 = 1 := by norm_num [scaleOf]
  have h1 : processComponent 300 300 1 (20/17) ⟨125, 60, 50, 120, 6000⟩
      = some ⟨125, 60, 50, 120, 173/170⟩ := by
    norm_num [processComponent, pyInt, scoreCandidate, compSolidity, aspectFails]
  have h2 : findDoorRegions 300 300 [(20/17, ⟨125, 60, 50, 120, 6000⟩)] []
      = [⟨125, 60, 50, 120, 173/170⟩] := by
    simp only [findDoorRegions, colorCandidates, addLineCandidates, sortVerticals,
      List.filterMap, hs, h1, pairsAfter, List.map, List.append_nil, suppress,
      sortByScoreDesc, List.insertionSort, nmsGo, List.any, List.take,
      List.nil_append]
  simp only [detectDoors, h2, emitDetections, List.enum, List.enumFrom,
    List.filterMap, emitOne]
  norm_num [round2, roundHalfEven]
  rfl

/-! ## Claim C3 -/

/-- C3: for every decoded image (any image size and any abstract
clustering/Hough outputs), the detections list returned by `detect_doors`
has length at most 1. -/
theorem C3_at_most_one_detection (w h : ℕ) (comps : List (ℚ × CompStats))
    (segs : List Segment) :
    (detectDoors w h comps segs).detections.length ≤ 1 := by
  rw [detectDoors_detections]
  calc (emitDetections w h (findDoorRegions w h comps segs)).length
      ≤ (findDoorRegions w h comps segs).enum.length :=
        List.length_filterMap_le _ _
    _ = (findDoorRegions w h comps segs).length := List.enum_length
    _ ≤ 1 := by rw [findDoorRegions_def]; exact suppress_length_le _

/-! ## Claim C7 -/

/-- C7 is false as stated: the perfectly decodable 2×3 image (scale 1,
6 downscaled pixels) makes `cv2.kmeans` raise (`k = 8` exceeds the 6
samples, a precondition the module never guards), so `detect_doors` fails
with an internal, non-decode error and returns no `DetectionResult` at
all, even though the bytes decode. -/
theorem C7_counterexample :
    detectDoorsFromBytes (some ⟨2, 3, [], []⟩)
      = Except.error DetectError.internalError ∧
    detectDoorsFromBytes (some ⟨2, 3, [], []⟩)
      ≠ Except.error DetectError.decodeFailure ∧
    (detectDoorsFromBytes (some ⟨2, 3, [], []⟩)).isOk = false := by
  have hs : scaleOf 2 3 = 1 := by norm_num [scaleOf]
  have hcond : cvInternalFailure 2 3 = true := by
    norm_num [cvInternalFailure, hs, pyInt]
  refine ⟨?_, ?_, ?_⟩ <;> simp [detectDoorsFromBytes, hcond, Except.isOk, Except.toBool]

/-- C7 amended: `detect_doors` fails with a decode error exactly when the
input bytes do not decode; a decodable image additionally fails with a
distinct internal (cv2) error exactly when its downscaled pixel count
`int(w·scale)·int(h·scale)` is below 8 (`cv2.resize` needs nonzero target
dimensions and `cv2.kmeans` needs at least `k = 8` samples); in every
other case the complete well-formed `DetectionResult` of the pipeline is
returned — no partial result exists. -/
theorem C7_amended_error_cases (inp : Option DecodedInput) :
    (detectDoorsFromBytes inp = Except.error DetectError.decodeFailure
      ↔ inp = none) ∧
    ∀ d : DecodedInput, inp = some d →
      ((detectDoorsFromBytes inp = Except.error DetectError.internalError ↔
          pyInt ((d.w : ℚ) * scaleOf d.w d.h)
            * pyInt ((d.h : ℚ) * scaleOf d.w d.h) < 8) ∧
       (¬ pyInt ((d.w : ℚ) * scaleOf d.w d.h)
            * pyInt ((d.h : ℚ) * scaleOf d.w d.h) < 8 →
          detectDoorsFromBytes inp
            = Except.ok (detectDoors d.w d.h d.comps d.segs))) := by
  cases inp with
  | none =>
    refine ⟨⟨fun _ => rfl, fun _ => rfl⟩, fun d hd => by cases hd⟩
  | some d =>
    constructor
    · constructor
      · intro hcontra
        by_cases hc : cvInternalFailure d.w d.h
        · simp [detectDoorsFromBytes, hc] at hcontra
        · simp [detectDoorsFromBytes, hc] at hcontra
      · intro hcontra
        cases hcontra
    · intro d' hd'
      obtain rfl := Option.some.inj hd'
      constructor
      · by_cases hc : pyInt ((d.w : ℚ) * scaleOf d.w d.h)
            * pyInt ((d.h : ℚ) * scaleOf d.w d.h) < 8
        · simp [detectDoorsFromBytes, cvInternalFailure, hc]
        · simp [detectDoorsFromBytes, cvInternalFailure, hc]
      · intro hc
        simp [detectDoorsFromBytes, cvInternalFailure, hc]

/-- Closed instance of `C7_amended_error_cases`: a 300×300 decodable input
satisfies the cv2 preconditions and yields the complete result. -/
theorem C7_witness :
    detectDoorsFromBytes (some ⟨300, 300, [], []⟩) =
      Except.ok (detectDoors 300 300 [] []) := by
  have hs : scaleOf 300 300 = 1 := by norm_num [scaleOf]
  refine ((C7_amended_error_cases (some ⟨300, 300, [], []⟩)).2 _ rfl).2 ?_
  norm_num [hs, pyInt]

/-! ## Claim C9 -/

/-- C9: every returned detection has confidence at least `0.74`: the
emission gate requires raw score `≥ 0.62`, and the emitted confidence is
`round(min(score*1.2, 0.99), 2) ≥ round(0.744, 2) = 0.74`. -/
theorem C9_confidence_floor (w h : ℕ) (comps : List (ℚ × CompStats))
    (segs : List Segment) (det : DetectionRecord)
    (hmem : det ∈ (detectDoors w h comps segs).detections) :
    74/100 ≤ det.confidence := by
  rw [detectDoors_detections] at hmem
  obtain ⟨i, c, _, he⟩ := mem_emitDetections hmem
  obtain ⟨hscore, _, _, hconf, _⟩ := emitOne_some_elim he
  rw [hconf]
  apply round2_lower (b := 74/100)
  · norm_num
  · have h1 : (74/100 : ℚ) ≤ c.score * (12/10) := by linarith
    have h2 : (74/100 : ℚ) ≤ 99/100 := by norm_num
    exact le_min h1 h2

/-- Closed instance of `C9_confidence_floor` on the sample input. -/
theorem C9_witness :
    (74/100 : ℚ) ≤
      (⟨"det_0", "Entrance", 99/100, ⟨125, 60, 175, 180⟩⟩ : DetectionRecord).confidence :=
  C9_confidence_floor 300 300 [(20/17, ⟨125, 60, 50, 120, 6000⟩)] [] _
    (by rw [demoDetections]; exact List.mem_singleton_self _)

/-! ## Claim C10 -/

/-- C10: whenever the returned detections list is non-empty, its single
record has id `"det_0"`: the suppressor yields at most one region and
enumeration assigns it index 0. -/
theorem C10_id_det0 (w h : ℕ) (comps : List (ℚ × CompStats))
    (segs : List Segment) (det : DetectionRecord)
    (hmem : det ∈ (detectDoors w h comps segs).detections) :
    det.id = "det_0" := by
  rw [detectDoors_detections] at hmem
  have hlen : (findDoorRegions w h comps segs).length ≤ 1 := by
    rw [findDoorRegions_def]; exact suppress_length_le _
  cases hRl : findDoorRegions w h comps segs with
  | nil =>
    rw [hRl] at hmem
    simp [emitDetections] at hmem
  | cons c t =>
    have ht : t = [] := by
      rw [hRl] at hlen
      simp only [List.length_cons] at hlen
      exact List.eq_nil_of_length_eq_zero (by omega)
    subst ht
    rw [hRl] at hmem
    simp only [emitDetections, List.enum, List.enumFrom, List.filterMap] at hmem
    cases hop : emitOne w h 0 c with
    | none => rw [hop] at hmem; simp at hmem
    | some r =>
      rw [hop] at hmem
      simp only [List.mem_singleton] at hmem
      subst hmem
      rw [(emitOne_some_elim hop).2.1]
      rfl

/-- Closed instance of `C10_id_det0` on the sample input. -/
theorem C10_witness :
    (⟨"det_0", "Entrance", 99/100, ⟨125, 60, 175, 180⟩⟩ : DetectionRecord).id
      = "det_0" :=
  C10_id_det0 300 300 [(20/17, ⟨125, 60, 50, 120, 6000⟩)] [] _
    (by rw [demoDetections]; exact List.mem_singleton_self _)

/-! ## Claim C1 -/

theorem emitDetections_singleton (w h : ℕ) (c : Candidate) :
    emitDetections w h [c] = (emitOne w h 0 c).toList := by
  cases hop : emitOne w h 0 c <;>
    simp [emitDetections, List.enum, List.enumFrom, List.filterMap, hop]

/-- C1 is false as stated: on a 300×300 image, the color component with
box `(39, 170)`–`(59, 270)` and color distance `1/2` survives every
generator filter with raw score exactly `3/5 = 0.6` and is the candidate
kept by suppression; its confidence `round(min(0.6*1.2, 0.99), 2) = 0.72`
is `≥ 0.62`, its clamped area is `2000/90000 ≤ 30%` of the image, and its
clamped height is `100/300 ≤ 55%` of the image height — yet `detect_doors`
emits zero detections, because the code gates on the RAW score
(`score < 0.62`), not on the confidence. -/
theorem C1_counterexample :
    findDoorRegions 300 300 [(1/2, ⟨39, 170, 20, 100, 900⟩)] []
      = [⟨39, 170, 20, 100, 3/5⟩] ∧
    (62/100 : ℚ) ≤ round2 (min ((3/5 : ℚ) * (12/10)) (99/100)) ∧
    ((20 * 100 : ℚ) / (300 * 300)) ≤ 3/10 ∧
    ((100 : ℚ) / 300) ≤ 55/100 ∧
    (detectDoors 300 300 [(1/2, ⟨39, 170, 20, 100, 900⟩)] []).detections = [] ∧
    IsColorDist (255/2, 0, 0) (0, 0, 0) (1/2) := by
  have hs : scaleOf 300 300 = 1 := by norm_num [scaleOf]
  have h1 : processComponent 300 300 1 (1/2) ⟨39, 170, 20, 100, 900⟩
      = some ⟨39, 170, 20, 100, 3/5⟩ := by
    norm_num [processComponent, pyInt, scoreCandidate, compSolidity, aspectFails]
  have h2 : findDoorRegions 300 300 [(1/2, ⟨39, 170, 20, 100, 900⟩)] []
      = [⟨39, 170, 20, 100, 3/5⟩] := by
    simp only [findDoorRegions, colorCandidates, addLineCandidates, sortVerticals,
      List.filterMap, hs, h1, pairsAfter, List.map, List.append_nil, suppress,
      sortByScoreDesc, List.insertionSort, nmsGo, List.any, List.take,
      List.nil_append]
  refine ⟨h2, ?_, by norm_num, by norm_num, ?_, ?_⟩
  · norm_num [round2, roundHalfEven]
  · rw [detectDoors_detections, h2, emitDetections_singleton]
    simp only [emitOne]
    norm_num
  · exact ⟨by norm_num, by norm_num [IsColorDist]⟩

/-- C1 amended: for a candidate kept by suppression, the final filter
emits a `DetectionRecord` if and only if the candidate's RAW score is
`≥ 0.62` (not its rounded confidence, which is then automatically
`≥ 0.74 ≥ 0.62`), and the clamped box's area is `≤ 30%` of the image
area, and the clamped box's height is `≤ 55%` of the image height;
otherwise zero detections are emitted. -/
theorem C1_amended_emit_iff (w h : ℕ) (c : Candidate) :
    emitDetections w h [c] ≠ [] ↔
      (62/100 ≤ c.score ∧
       ((min c.w ((w : ℤ) - max 0 c.x) * min c.h ((h : ℤ) - max 0 c.y) : ℤ) : ℚ)
           / ((w * h : ℕ) : ℚ) ≤ 3/10 ∧
       ((min c.h ((h : ℤ) - max 0 c.y) : ℤ) : ℚ) / (h : ℚ) ≤ 55/100) := by
  rw [emitDetections_singleton]
  constructor
  · intro hne
    cases hop : emitOne w h 0 c with
    | none => rw [hop] at hne; simp at hne
    | some r =>
      obtain ⟨hs, _, _, _, _, ha, hh⟩ := emitOne_some_elim hop
      exact ⟨hs, ha, hh⟩
  · rintro ⟨hs, ha, hh⟩
    have hop : emitOne w h 0 c ≠ none := by
      simp only [emitOne]
      rw [if_neg (not_lt.mpr hs), if_neg (not_or.mpr ⟨not_lt.mpr ha, not_lt.mpr hh⟩)]
      simp
    cases hop2 : emitOne w h 0 c with
    | none => exact absurd hop2 hop
    | some r => simp

/-! ## Claim C6 -/

/-- C6 is false as stated: two overlapping candidates with EQUAL scores.
The stable descending sort keeps their input order, greedy suppression
keeps whichever comes first, and the two permutations of the pool yield
different results. -/
theorem C6_counterexample :
    ([⟨0, 0, 10, 20, 1/2⟩, ⟨0, 0, 10, 19, 1/2⟩] : List Candidate).Perm
      [⟨0, 0, 10, 19, 1/2⟩, ⟨0, 0, 10, 20, 1/2⟩] ∧
    suppress [⟨0, 0, 10, 20, 1/2⟩, ⟨0, 0, 10, 19, 1/2⟩]
      ≠ suppress [⟨0, 0, 10, 19, 1/2⟩, ⟨0, 0, 10, 20, 1/2⟩] := by
  constructor
  · exact List.Perm.swap _ _ _
  · have hsort : ∀ a b : Candidate, a.score = 1/2 → b.score = 1/2 →
        sortByScoreDesc [a, b] = [a, b] := by
      intro a b hsa hsb
      simp [sortByScoreDesc, List.insertionSort, List.orderedInsert, hsa, hsb]
    have hov : overlapsKept ⟨0, 0, 10, 19, 1/2⟩ ⟨0, 0, 10, 20, 1/2⟩ = true := by
      norm_num [overlapsKept]
    have hov2 : overlapsKept ⟨0, 0, 10, 20, 1/2⟩ ⟨0, 0, 10, 19, 1/2⟩ = true := by
      norm_num [overlapsKept]
    have e1 : suppress [⟨0, 0, 10, 20, 1/2⟩, ⟨0, 0, 10, 19, 1/2⟩]
        = [⟨0, 0, 10, 20, 1/2⟩] := by
      rw [suppress, hsort _ _ rfl rfl]
      simp only [nmsGo, List.any, hov, List.take, Bool.or_false, List.any_nil,
        List.any_cons, if_true, List.nil_append]
    have e2 : suppress [⟨0, 0, 10, 19, 1/2⟩, ⟨0, 0, 10, 20, 1/2⟩]
        = [⟨0, 0, 10, 19, 1/2⟩] := by
      rw [suppress, hsort _ _ rfl rfl]
      simp only [nmsGo, List.any, hov2, List.take, Bool.or_false, List.any_nil,
        List.any_cons, if_true, List.nil_append]
    rw [e1, e2]
    simp

/-- C6 amended: suppression is permutation-invariant PROVIDED the pooled
candidates' scores are pairwise distinct (ties are broken by the stable
sort according to pool order, so permutations that swap equal-scored
candidates can change the result, as `C6_counterexample` shows). -/
theorem C6_amended_suppress_perm (l₁ l₂ : List Candidate) (hperm : l₁.Perm l₂)
    (hdist : l₁.Pairwise fun a b => a.score ≠ b.score) :
    suppress l₁ = suppress l₂ := by
  have hsym : ∀ {a b : Candidate}, a.score ≠ b.score → b.score ≠ a.score :=
    fun hne => hne.symm
  haveI : IsAntisymm Candidate (fun a b => b.score < a.score) :=
    ⟨fun a b hab hba => absurd (lt_trans hab hba) (lt_irrefl _)⟩
  haveI : IsTotal Candidate (fun a b => b.score ≤ a.score) :=
    ⟨fun a b => le_total b.score a.score⟩
  haveI : IsTrans Candidate (fun a b => b.score ≤ a.score) :=
    ⟨fun a b c h1 h2 => le_trans h2 h1⟩
  have s1 : List.Sorted (fun a b => b.score ≤ a.score) (sortByScoreDesc l₁) :=
    List.sorted_insertionSort _ _
  have s2 : List.Sorted (fun a b => b.score ≤ a.score) (sortByScoreDesc l₂) :=
    List.sorted_insertionSort _ _
  have p1 : (sortByScoreDesc l₁).Perm l₁ := List.perm_insertionSort _ _
  have p2 : (sortByScoreDesc l₂).Perm l₂ := List.perm_insertionSort _ _
  have d1 : (sortByScoreDesc l₁).Pairwise (fun a b => a.score ≠ b.score) :=
    (p1.pairwise_iff hsym).mpr hdist
  have d2 : (sortByScoreDesc l₂).Pairwise (fun a b => a.score ≠ b.score) :=
    (p2.pairwise_iff hsym).mpr ((hperm.pairwise_iff hsym).mp hdist)
  have st1 : List.Sorted (fun a b => b.score < a.score) (sortByScoreDesc l₁) :=
    (s1.and d1).imp fun hab => lt_of_le_of_ne hab.1 hab.2.symm
  have st2 : List.Sorted (fun a b => b.score < a.score) (sortByScoreDesc l₂) :=
    (s2.and d2).imp fun hab => lt_of_le_of_ne hab.1 hab.2.symm
  have hsort : sortByScoreDesc l₁ = sortByScoreDesc l₂ :=
    List.eq_of_perm_of_sorted (p1.trans (hperm.trans p2.symm)) st1 st2
  unfold suppress
  rw [hsort]

/-- Closed instance of `C6_amended_suppress_perm`: with pairwise distinct
scores, both orders of the pool suppress to the same single candidate. -/
theorem C6_witness :
    suppress [⟨0, 0, 10, 20, 3/5⟩, ⟨0, 0, 10, 19, 1/2⟩]
      = suppress [⟨0, 0, 10, 19, 1/2⟩, ⟨0, 0, 10, 20, 3/5⟩] :=
  C6_amended_suppress_perm _ _ (List.Perm.swap _ _ _)
    (by norm_num [List.pairwise_cons])


/-! ## Claim C8 -/

/-- The pairing-loop body in the code's own (negated-skip) condition form:
`processPair` returns a candidate exactly when none of the five `continue`
conditions fires, and that candidate carries the code's score expression. -/
theorem processPair_eq (w h : ℕ) (minArea : ℚ) (l r : Vertical) :
    processPair w h minArea l r =
      (if ¬(r.cx - l.cx < (w : ℚ) * (8/100) ∨ (w : ℚ) * (45/100) < r.cx - l.cx) ∧
          ¬(((max l.bot r.bot - min l.top r.top : ℤ) : ℚ) < (h : ℚ) * (1/4)) ∧
          ¬(((max l.bot r.bot - min l.top r.top : ℤ) : ℚ) / (r.cx - l.cx) < 12/10 ∨
            45/10 < ((max l.bot r.bot - min l.top r.top : ℤ) : ℚ) / (r.cx - l.cx)) ∧
          ¬((r.cx - l.cx) * ((max l.bot r.bot - min l.top r.top : ℤ) : ℚ) < minArea) ∧
          ¬(((max l.bot r.bot : ℤ) : ℚ) / (h : ℚ) < 1/2)
       then some ⟨pyInt l.cx, min l.top r.top, pyInt (r.cx - l.cx),
             max l.bot r.bot - min l.top r.top,
             ((max l.bot r.bot : ℤ) : ℚ) / (h : ℚ) * (45/100)
               + (1 - |(l.cx + r.cx)/2 - (w : ℚ)/2| / ((w : ℚ)/2)) * (35/100) + 2/10⟩
       else none) := by
  simp only [processPair]
  split_ifs <;> first | rfl | tauto

/-- C8: the line-based generator appends a candidate for a pair of
near-vertical segments if and only if their horizontal gap is in
`[0.08, 0.45]·W`, their combined vertical span is `≥ 0.25·H`, span/gap is
in `[1.2, 4.5]`, their area is at least `1%` of the image area
(`minArea = W·H/100`), and their lower edge is not in the top half of the
image; the appended candidate's score is
`0.45·(bottom/H) + 0.35·(1 - |center_x - W/2| / (W/2)) + 0.20`. -/
theorem C8_line_pair_iff (w h : ℕ) (l r : Vertical) :
    processPair w h ((w : ℚ) * (h : ℚ) * (1/100)) l r =
      (if (w : ℚ) * (8/100) ≤ r.cx - l.cx ∧ r.cx - l.cx ≤ (w : ℚ) * (45/100) ∧
          (h : ℚ) * (1/4) ≤ ((max l.bot r.bot - min l.top r.top : ℤ) : ℚ) ∧
          12/10 ≤ ((max l.bot r.bot - min l.top r.top : ℤ) : ℚ) / (r.cx - l.cx) ∧
          ((max l.bot r.bot - min l.top r.top : ℤ) : ℚ) / (r.cx - l.cx) ≤ 45/10 ∧
          (w : ℚ) * (h : ℚ) * (1/100) ≤ (r.cx - l.cx) * ((max l.bot r.bot - min l.top r.top : ℤ) : ℚ) ∧
          1/2 ≤ ((max l.bot r.bot : ℤ) : ℚ) / (h : ℚ)
       then some ⟨pyInt l.cx, min l.top r.top, pyInt (r.cx - l.cx),
             max l.bot r.bot - min l.top r.top,
             45/100 * (((max l.bot r.bot : ℤ) : ℚ) / (h : ℚ))
               + 35/100 * (1 - |(l.cx + r.cx)/2 - (w : ℚ)/2| / ((w : ℚ)/2)) + 2/10⟩
       else none) := by
  rw [processPair_eq]
  apply if_congr
  · constructor
    · rintro ⟨n1, n2, n3, n4, n5⟩
      rw [not_or] at n1 n3
      exact ⟨not_lt.mp n1.1, not_lt.mp n1.2, not_lt.mp n2, not_lt.mp n3.1,
        not_lt.mp n3.2, not_lt.mp n4, not_lt.mp n5⟩
    · rintro ⟨b1, b2, b3, b4, b5, b6, b7⟩
      exact ⟨by rintro (hc | hc) <;> linarith,
             by intro hc; linarith,
             by rintro (hc | hc) <;> linarith,
             by intro hc; linarith,
             by intro hc; linarith⟩
  · simp only [Option.some.injEq, Candidate.mk.injEq, true_and, and_true]
    ring
  · rfl

/-! ## Claim C5 -/

theorem processComponent_some_elim {w h : ℕ} {scale colorDist : ℚ}
    {st : CompStats} {c : Candidate}
    (hsome : processComponent w h scale colorDist st = some c) :
    c.x = pyInt ((st.x : ℚ) / scale) ∧
    c.y = pyInt ((st.y : ℚ) / scale) ∧
    c.w = pyInt ((st.cw : ℚ) / scale) ∧
    c.h = pyInt ((st.ch : ℚ) / scale) ∧
    10 ≤ c.w ∧ 15 ≤ c.h ∧
    c.score = scoreCandidate c.x c.y c.w c.h ((st.area : ℚ) / (scale * scale))
      (compSolidity st) colorDist w h := by
  simp only [processComponent] at hsome
  split_ifs at hsome with h1 h2 h3 h4 h5
  cases hsome
  have h2' := not_or.mp h2
  exact ⟨rfl, rfl, rfl, rfl, not_lt.mp h2'.1, not_lt.mp h2'.2, rfl⟩

theorem processPair_some_elim {w h : ℕ} {minArea : ℚ} {l r : Vertical}
    {c : Candidate} (hsome : processPair w h minArea l r = some c) :
    c.x = pyInt l.cx ∧ c.y = min l.top r.top ∧ c.w = pyInt (r.cx - l.cx) ∧
    c.h = max l.bot r.bot - min l.top r.top ∧
    (w : ℚ) * (8/100) ≤ r.cx - l.cx ∧ r.cx - l.cx ≤ (w : ℚ) * (45/100) ∧
    (h : ℚ) * (1/4) ≤ ((max l.bot r.bot - min l.top r.top : ℤ) : ℚ) ∧
    12/10 ≤ ((max l.bot r.bot - min l.top r.top : ℤ) : ℚ) / (r.cx - l.cx) ∧
    ((max l.bot r.bot - min l.top r.top : ℤ) : ℚ) / (r.cx - l.cx) ≤ 45/10 ∧
    minArea ≤ (r.cx - l.cx) * ((max l.bot r.bot - min l.top r.top : ℤ) : ℚ) ∧
    1/2 ≤ ((max l.bot r.bot : ℤ) : ℚ) / (h : ℚ) := by
  simp only [processPair] at hsome
  split_ifs at hsome with h1 h2 h3 h4 h5
  cases hsome
  have h1' := not_or.mp h1
  have h3' := not_or.mp h3
  exact ⟨rfl, rfl, rfl, rfl, not_lt.mp h1'.1, not_lt.mp h1'.2, not_lt.mp h2,
    not_lt.mp h3'.1, not_lt.mp h3'.2, not_lt.mp h4, not_lt.mp h5⟩

theorem scoreCandidate_bottom {ox oy ocw och : ℤ}
    {realArea solidity colorDist : ℚ} {w h : ℕ}
    (hs : 62/100 ≤ scoreCandidate ox oy ocw och realArea solidity colorDist w h) :
    45/100 * (h : ℚ) ≤ ((oy + och : ℤ) : ℚ) := by
  by_cases h1 : ((oy + och : ℤ) : ℚ) / (h : ℚ) < 45/100
  · exfalso
    have h0 : scoreCandidate ox oy ocw och realArea solidity colorDist w h = 0 := by
      simp only [scoreCandidate]
      rw [if_pos h1]
    rw [h0] at hs
    norm_num at hs
  · push_neg at h1
    rcases Nat.eq_zero_or_pos h with h0 | h0
    · exfalso
      subst h0
      rw [Nat.cast_zero, div_zero] at h1
      norm_num at h1
    · have hh : (0 : ℚ) < h := by exact_mod_cast h0
      rw [le_div_iff₀ hh] at h1
      linarith

theorem mem_pool_cases {w h : ℕ} {comps : List (ℚ × CompStats)}
    {segs : List Segment} {c : Candidate}
    (hc : c ∈ colorCandidates w h (scaleOf w h) comps
        ++ addLineCandidates w h ((w : ℚ) * (h : ℚ) * (1/100)) segs) :
    (∃ p ∈ comps, processComponent w h (scaleOf w h) p.1 p.2 = some c) ∨
    (∃ pr ∈ pairsAfter (sortVerticals (segs.filterMap toVertical)),
       processPair w h ((w : ℚ) * (h : ℚ) * (1/100)) pr.1 pr.2 = some c) := by
  rcases List.mem_append.mp hc with hcc | hcc
  · left
    obtain ⟨p, hp, he⟩ := List.mem_filterMap.mp hcc
    exact ⟨p, hp, he⟩
  · right
    obtain ⟨pr, hpr, he⟩ := List.mem_filterMap.mp hcc
    exact ⟨pr, hpr, he⟩

/-- C5: no returned detection has its bottom edge strictly above
`0.45 * image_height`, whether the underlying candidate came from the
color-based or the line-based generator. -/
theorem C5_bottom_edge (w h : ℕ) (comps : List (ℚ × CompStats))
    (segs : List Segment) (det : DetectionRecord)
    (hmem : det ∈ (detectDoors w h comps segs).detections) :
    45/100 * (h : ℚ) ≤ (det.bbox.ymax : ℚ) := by
  rw [detectDoors_detections] at hmem
  obtain ⟨i, c, hcr, he⟩ := mem_emitDetections hmem
  obtain ⟨hscore, _, _, _, hbbox, _, _⟩ := emitOne_some_elim he
  rw [findDoorRegions_def] at hcr
  have hcpool := mem_suppress hcr
  have hkey : 45/100 * (h : ℚ) ≤ ((c.y + c.h : ℤ) : ℚ) := by
    rcases mem_pool_cases hcpool with ⟨p, _, hp⟩ | ⟨pr, _, hp⟩
    · obtain ⟨_, _, _, _, _, _, hscoreEq⟩ := processComponent_some_elim hp
      rw [hscoreEq] at hscore
      exact scoreCandidate_bottom hscore
    · obtain ⟨_, hy, _, hh, _, _, _, _, _, _, hbot⟩ := processPair_some_elim hp
      have hsum : (c.y + c.h : ℤ) = max pr.1.bot pr.2.bot := by
        rw [hy, hh]; ring
      rw [hsum]
      rcases Nat.eq_zero_or_pos h with h0 | h0
      · exfalso
        subst h0
        rw [Nat.cast_zero, div_zero] at hbot
        norm_num at hbot
      · have hhq : (0 : ℚ) < h := by exact_mod_cast h0
        rw [le_div_iff₀ hhq] at hbot
        linarith
  have hymax : det.bbox.ymax = max 0 c.y + min c.h ((h : ℤ) - max 0 c.y) := by
    rw [hbbox]
  rw [hymax]
  have heq : max 0 c.y + min c.h ((h : ℤ) - max 0 c.y)
      = min (max 0 c.y + c.h) (h : ℤ) := by omega
  rw [heq, Int.cast_min]
  refine le_min ?_ ?_
  · have hmono : ((c.y + c.h : ℤ) : ℚ) ≤ ((max 0 c.y + c.h : ℤ) : ℚ) := by
      have : (c.y + c.h : ℤ) ≤ max 0 c.y + c.h := by omega
      exact_mod_cast this
    push_cast at hmono ⊢
    push_cast at hkey
    linarith
  · push_cast
    have : (0 : ℚ) ≤ (h : ℚ) := Nat.cast_nonneg _
    linarith

/-- Closed instance of `C5_bottom_edge` on the sample input:
`0.45 * 300 = 135 ≤ 180`. -/
theorem C5_witness :
    45/100 * ((300 : ℕ) : ℚ) ≤
      ((⟨"det_0", "Entrance", 99/100, ⟨125, 60, 175, 180⟩⟩ : DetectionRecord).bbox.ymax : ℚ) :=
  C5_bottom_edge 300 300 [(20/17, ⟨125, 60, 50, 120, 6000⟩)] [] _
    (by rw [demoDetections]; exact List.mem_singleton_self _)

/-! ## Claim C2 -/

theorem scoreCandidate_bounds {ox oy ocw och : ℤ}
    {realArea solidity colorDist : ℚ} {w h : ℕ}
    (hw : 1 ≤ w) (harea : 0 ≤ realArea) (hsol0 : 0 ≤ solidity)
    (hsol1 : solidity ≤ 1) (hd : 0 ≤ colorDist)
    (hox : 0 ≤ ox) (hocw : 0 ≤ ocw) (hbound : (ox : ℚ) + (ocw : ℚ) ≤ w) :
    0 ≤ scoreCandidate ox oy ocw och realArea solidity colorDist w h ∧
    scoreCandidate ox oy ocw och realArea solidity colorDist w h
      ≤ 9/10 + colorDist / 10 := by
  have hwq : (1 : ℚ) ≤ (w : ℚ) := by exact_mod_cast hw
  have hw2 : (0 : ℚ) < (w : ℚ) / 2 := by linarith
  have hoxq : (0 : ℚ) ≤ (ox : ℚ) := by exact_mod_cast hox
  have hocwq : (0 : ℚ) ≤ (ocw : ℚ) := by exact_mod_cast hocw
  have habs : |(ox : ℚ) + (ocw : ℚ) / 2 - (w : ℚ) / 2| ≤ (w : ℚ) / 2 :=
    abs_le.mpr ⟨by linarith, by linarith⟩
  have hhoriz0 : 0 ≤ 1 - |(ox : ℚ) + (ocw : ℚ) / 2 - (w : ℚ) / 2| / ((w : ℚ) / 2) := by
    rw [sub_nonneg]
    exact (div_le_one hw2).mpr habs
  have hhoriz1 : 1 - |(ox : ℚ) + (ocw : ℚ) / 2 - (w : ℚ) / 2| / ((w : ℚ) / 2) ≤ 1 := by
    have : 0 ≤ |(ox : ℚ) + (ocw : ℚ) / 2 - (w : ℚ) / 2| / ((w : ℚ) / 2) :=
      div_nonneg (abs_nonneg _) hw2.le
    linarith
  have hsize0 : 0 ≤ min (realArea / ((w : ℚ) * (h : ℚ) * (3/100))) 1 := by
    refine le_min ?_ zero_le_one
    have hden : (0 : ℚ) ≤ (w : ℚ) * (h : ℚ) * (3/100) := by positivity
    exact div_nonneg harea hden
  have hsize1 : min (realArea / ((w : ℚ) * (h : ℚ) * (3/100))) 1 ≤ 1 :=
    min_le_right _ _
  simp only [scoreCandidate]
  split_ifs <;> constructor <;> linarith

theorem processComponent_valid {w h : ℕ} {d : ℚ} {st : CompStats}
    {c : Candidate} (hw : 1 ≤ w) (hh : 1 ≤ h) (hok : CompOK w h st)
    (hsome : processComponent w h (scaleOf w h) d st = some c) :
    0 ≤ c.x ∧ 10 ≤ c.w ∧ c.x + c.w ≤ w ∧ 0 ≤ c.y ∧ 15 ≤ c.h ∧ c.y + c.h ≤ h := by
  obtain ⟨hx, hy, hcw, hch, hw10, hh15, -⟩ := processComponent_some_elim hsome
  have hs0 : 0 < scaleOf w h := by
    unfold scaleOf
    have hmax : (0 : ℚ) < ((max h w : ℕ) : ℚ) := by
      have : 1 ≤ max h w := le_trans hw (le_max_right h w)
      exact_mod_cast Nat.lt_of_lt_of_le Nat.zero_lt_one this
    exact lt_min one_pos (by positivity)
  -- generic per-axis fact
  have key : ∀ (a b : ℕ) (n : ℕ), (a : ℤ) + b ≤ pyInt ((n : ℚ) * scaleOf w h) →
      0 ≤ pyInt ((a : ℚ) / scaleOf w h) ∧
      pyInt ((a : ℚ) / scaleOf w h) + pyInt ((b : ℚ) / scaleOf w h) ≤ (n : ℤ) := by
    intro a b n hab
    have hda : (0 : ℚ) ≤ (a : ℚ) / scaleOf w h :=
      div_nonneg (Nat.cast_nonneg _) hs0.le
    have hdb : (0 : ℚ) ≤ (b : ℚ) / scaleOf w h :=
      div_nonneg (Nat.cast_nonneg _) hs0.le
    have hns : (0 : ℚ) ≤ (n : ℚ) * scaleOf w h := by positivity
    rw [pyInt_of_nonneg hda, pyInt_of_nonneg hdb]
    rw [pyInt_of_nonneg hns] at hab
    constructor
    · exact Int.floor_nonneg.mpr hda
    · have hfl : (⌊(n : ℚ) * scaleOf w h⌋ : ℚ) ≤ (n : ℚ) * scaleOf w h :=
        Int.floor_le _
      have habq : ((a : ℕ) : ℚ) + ((b : ℕ) : ℚ) ≤ (⌊(n : ℚ) * scaleOf w h⌋ : ℚ) := by
        exact_mod_cast hab
      have hsum : ((a : ℚ) + (b : ℚ)) / scaleOf w h ≤ (n : ℚ) := by
        rw [div_le_iff₀ hs0]
        calc (a : ℚ) + (b : ℚ) ≤ (n : ℚ) * scaleOf w h := le_trans habq hfl
          _ = (n : ℚ) * scaleOf w h := rfl
      have hfla : (⌊(a : ℚ) / scaleOf w h⌋ : ℚ) ≤ (a : ℚ) / scaleOf w h :=
        Int.floor_le _
      have hflb : (⌊(b : ℚ) / scaleOf w h⌋ : ℚ) ≤ (b : ℚ) / scaleOf w h :=
        Int.floor_le _
      have : ((⌊(a : ℚ) / scaleOf w h⌋ + ⌊(b : ℚ) / scaleOf w h⌋ : ℤ) : ℚ) ≤ (n : ℚ) := by
        push_cast
        rw [add_div] at hsum
        linarith
      exact_mod_cast this
  obtain ⟨hok1, hok2, -⟩ := hok
  obtain ⟨kx1, kx2⟩ := key st.x st.cw w hok1
  obtain ⟨ky1, ky2⟩ := key st.y st.ch h hok2
  rw [hx, hy, hcw, hch]
  rw [hcw] at hw10
  rw [hch] at hh15
  exact ⟨kx1, hw10, kx2, ky1, hh15, ky2⟩

/-- C2 amended: every candidate appended by the color-based generator has
score in `[0, 0.9 + colorDist/10]` with `colorDist² ≤ 3`. -/
theorem C2_amended_score_bounds (w h : ℕ) (hw : 1 ≤ w) (hh : 1 ≤ h)
    (cluster dominant : ℚ × ℚ × ℚ) (d : ℚ) (st : CompStats) (c : Candidate)
    (hcl : ColorInRange cluster) (hdo : ColorInRange dominant)
    (hd : IsColorDist cluster dominant d) (hok : CompOK w h st)
    (hsome : processComponent w h (scaleOf w h) d st = some c) :
    0 ≤ c.score ∧ c.score ≤ 9/10 + d / 10 ∧ d ^ 2 ≤ 3 := by
  obtain ⟨hx, hy, hcw, hch, hw10, hh15, hscoreEq⟩ := processComponent_some_elim hsome
  obtain ⟨hx0, hw10', hxw, -, -, -⟩ := processComponent_valid hw hh hok hsome
  have hd3 : d ^ 2 ≤ 3 := by
    obtain ⟨hd0, hdsq⟩ := hd
    obtain ⟨b10, b11, g10, g11, r10, r11⟩ := hcl
    obtain ⟨b20, b21, g20, g21, r20, r21⟩ := hdo
    rw [hdsq, div_le_iff₀ (by norm_num : (0 : ℚ) < 255 ^ 2)]
    have e1 : (cluster.1 - dominant.1) ^ 2 ≤ 255 ^ 2 :=
      sq_le_sq' (by linarith) (by linarith)
    have e2 : (cluster.2.1 - dominant.2.1) ^ 2 ≤ 255 ^ 2 :=
      sq_le_sq' (by linarith) (by linarith)
    have e3 : (cluster.2.2 - dominant.2.2) ^ 2 ≤ 255 ^ 2 :=
      sq_le_sq' (by linarith) (by linarith)
    linarith
  have hsolid0 : 0 ≤ compSolidity st := by
    unfold compSolidity
    split_ifs with hpos
    · positivity
    · exact le_refl 0
  have hsolid1 : compSolidity st ≤ 1 := by
    unfold compSolidity
    split_ifs with hpos
    · rw [div_le_one (by exact_mod_cast hpos)]
      exact_mod_cast hok.2.2
    · exact zero_le_one
  have hra : (0 : ℚ) ≤ (st.area : ℚ) / (scaleOf w h * scaleOf w h) := by
    have h1 : (0 : ℚ) ≤ (st.area : ℚ) := Nat.cast_nonneg _
    have h2 : (0 : ℚ) ≤ scaleOf w h * scaleOf w h := mul_self_nonneg _
    exact div_nonneg h1 h2
  have hboundq : (c.x : ℚ) + (c.w : ℚ) ≤ (w : ℚ) := by exact_mod_cast hxw
  have hocw : (0 : ℤ) ≤ c.w := by linarith
  rw [hscoreEq]
  have hb := @scoreCandidate_bounds c.x c.y c.w c.h
    ((st.area : ℚ) / (scaleOf w h * scaleOf w h)) (compSolidity st) d w h
    hw hra hsolid0 hsolid1 hd.1 hx0 hocw hboundq
  exact ⟨hb.1, hb.2, hd3⟩

/-- C2 is false as stated: on a 300×300 image (`scale = 1`) the component
with box `(125, 60)`–`(175, 180)`, full solidity, and color distance
`20/17 > 1` (realized by centroids `(180, 240, 0)` and `(0, 0, 0)`:
`√(180² + 240²)/255 = 300/255 = 20/17`) is appended to the pool by the
color-based generator with score `173/170 > 1`. -/
theorem C2_counterexample :
    processComponent 300 300 (scaleOf 300 300) (20/17) ⟨125, 60, 50, 120, 6000⟩
      = some ⟨125, 60, 50, 120, 173/170⟩ ∧
    IsColorDist (180, 240, 0) (0, 0, 0) (20/17) ∧
    ColorInRange (180, 240, 0) ∧ ColorInRange (0, 0, 0) ∧
    CompOK 300 300 ⟨125, 60, 50, 120, 6000⟩ ∧
    ¬ ((20/17 : ℚ) ≤ 1) ∧ ¬ ((173/170 : ℚ) ≤ 1) := by
  have hs : scaleOf 300 300 = 1 := by norm_num [scaleOf]
  refine ⟨?_, ⟨by norm_num, by norm_num [IsColorDist]⟩, ?_, ?_, ?_, by norm_num, by norm_num⟩
  · rw [hs]
    norm_num [processComponent, pyInt, scoreCandidate, compSolidity, aspectFails]
  · norm_num [ColorInRange]
  · norm_num [ColorInRange]
  · refine ⟨?_, ?_, by norm_num⟩ <;> · rw [hs]; norm_num [pyInt]

/-- Closed instance of `C2_amended_score_bounds` at the counterexample
component: `0 ≤ 173/170 ≤ 9/10 + (20/17)/10` (with equality) and
`(20/17)² ≤ 3`. -/
theorem C2_witness :
    (0 : ℚ) ≤ (⟨125, 60, 50, 120, 173/170⟩ : Candidate).score ∧
    (⟨125, 60, 50, 120, 173/170⟩ : Candidate).score ≤ 9/10 + (20/17 : ℚ) / 10 ∧
    ((20/17 : ℚ)) ^ 2 ≤ 3 := by
  have hs : scaleOf 300 300 = 1 := by norm_num [scaleOf]
  refine C2_amended_score_bounds 300 300 (by norm_num) (by norm_num)
    (180, 240, 0) (0, 0, 0) (20/17) ⟨125, 60, 50, 120, 6000⟩ _
    (by norm_num [ColorInRange]) (by norm_num [ColorInRange])
    ⟨by norm_num, by norm_num [IsColorDist]⟩
    ⟨by rw [hs]; norm_num [pyInt], by rw [hs]; norm_num [pyInt], by norm_num⟩
    ?_
  rw [hs]
  norm_num [processComponent, pyInt, scoreCandidate, compSolidity, aspectFails]

/-! ## Claim C4 -/

/-- Facts about any `Vertical` built from a Hough segment within the
image: `cx` bounds, `top ≤ bot` bounds, and the parity fact that a
half-integer `cx` (odd `2·cx`) forces a vertical span of at least 4
(a near-vertical segment with odd `dx` needs `dy ≥ 4`). -/
def VertOK (w h : ℕ) (v : Vertical) : Prop :=
  0 ≤ v.cx ∧ v.cx ≤ (w : ℚ) - 1 ∧ 0 ≤ v.top ∧ v.top ≤ v.bot ∧
  v.bot ≤ (h : ℤ) - 1 ∧
  ∃ k : ℤ, 2 * v.cx = (k : ℚ) ∧ (¬ 2 ∣ k → 4 ≤ v.bot - v.top)

theorem toVertical_ok {w h : ℕ} {s : Segment} {v : Vertical}
    (hs : SegOK w h s) (hv : toVertical s = some v) : VertOK w h v := by
  obtain ⟨x1, y1, x2, y2⟩ := s
  obtain ⟨hx10, hx1w, hy10, hy1h, hx20, hx2w, hy20, hy2h⟩ := hs
  simp only [toVertical] at hv
  split_ifs at hv with hnv
  cases hv
  simp only [nearVertical, Bool.or_eq_true, Bool.and_eq_true,
    decide_eq_true_eq] at hnv
  refine ⟨?_, ?_, ?_, ?_, ?_, x1 + x2, ?_, ?_⟩
  · have h1 : (0 : ℚ) ≤ (x1 : ℚ) := by exact_mod_cast hx10
    have h2 : (0 : ℚ) ≤ (x2 : ℚ) := by exact_mod_cast hx20
    linarith
  · have h1 : (x1 : ℚ) ≤ (w : ℚ) - 1 := by exact_mod_cast hx1w
    have h2 : (x2 : ℚ) ≤ (w : ℚ) - 1 := by exact_mod_cast hx2w
    linarith
  · exact le_min hy10 hy20
  · exact le_trans (min_le_left _ _) (le_max_left _ _)
  · exact max_le hy1h hy2h
  · push_cast
    ring
  · intro hodd
    have hdx : ¬ 2 ∣ (x2 - x1) := by omega
    rcases hnv with ⟨hdy0, hdx0⟩ | ⟨⟨hdy, habs⟩, hsq⟩
    · exact absurd (by omega : (2 : ℤ) ∣ (x2 - x1)) hdx
    · have hne : x2 - x1 ≠ 0 := by omega
      have hdx1 : 1 ≤ |x2 - x1| := Int.one_le_abs hne
      have habs0 : 0 ≤ |x2 - x1| := abs_nonneg _
      have h2dy : (2 * (y2 - y1) - |x2 - x1|) ^ 2 ≤ (2 * (y2 - y1) - 1) ^ 2 := by
        have hub : 2 * (y2 - y1) - |x2 - x1| ≤ 2 * (y2 - y1) - 1 := by linarith
        have hlb : -(2 * (y2 - y1) - 1) ≤ 2 * (y2 - y1) - |x2 - x1| := by linarith
        exact sq_le_sq' hlb hub
      have hquad : 0 < (y2 - y1) ^ 2 - 4 * (y2 - y1) + 1 := by nlinarith
      have hdy4 : 4 ≤ y2 - y1 := by
        by_contra hc
        push_neg at hc
        have h31 : (0 : ℤ) ≤ y2 - y1 - 1 := by omega
        have h32 : (0 : ℤ) ≤ 3 - (y2 - y1) := by omega
        nlinarith [mul_nonneg h31 h32]
      show 4 ≤ max y1 y2 - min y1 y2
      omega

theorem processPair_valid {w h : ℕ} {minArea : ℚ} {l r : Vertical}
    {c : Candidate} (hw : 1 ≤ w) (hh : 1 ≤ h)
    (hl : VertOK w h l) (hr : VertOK w h r)
    (hsome : processPair w h minArea l r = some c) :
    0 ≤ c.x ∧ 1 ≤ c.w ∧ c.x + c.w ≤ (w : ℤ) ∧
    0 ≤ c.y ∧ 1 ≤ c.h ∧ c.y + c.h ≤ (h : ℤ) := by
  obtain ⟨hcx, hcy, hcw, hch, hgapLo, hgapHi, hheight, haspLo, haspHi, hminA, hbot⟩ :=
    processPair_some_elim hsome
  obtain ⟨hl0, hlw, hlt0, hltb, hlbh, kl, hkl, hklodd⟩ := hl
  obtain ⟨hr0, hrw, hrt0, hrtb, hrbh, kr, hkr, hkrodd⟩ := hr
  have hwq : (1 : ℚ) ≤ (w : ℚ) := by exact_mod_cast hw
  have hhq : (1 : ℚ) ≤ (h : ℚ) := by exact_mod_cast hh
  have hgap0 : 0 < r.cx - l.cx := lt_of_lt_of_le (by linarith) hgapLo
  have hcy0 : 0 ≤ c.y := by rw [hcy]; exact le_min hlt0 hrt0
  have hch1 : 1 ≤ c.h := by
    rw [hch]
    have hpos : (0 : ℚ) < ((max l.bot r.bot - min l.top r.top : ℤ) : ℚ) :=
      lt_of_lt_of_le (by linarith) hheight
    have : (0 : ℤ) < max l.bot r.bot - min l.top r.top := by exact_mod_cast hpos
    omega
  have hsum : c.y + c.h = max l.bot r.bot := by rw [hcy, hch]; ring
  have hyh : c.y + c.h ≤ (h : ℤ) := by
    rw [hsum]
    have h1 := max_le hlbh hrbh
    omega
  have hcx0 : 0 ≤ c.x := by
    rw [hcx, pyInt_of_nonneg hl0]
    exact Int.floor_nonneg.mpr hl0
  have hcw1 : 1 ≤ c.w := by
    rw [hcw, pyInt_of_nonneg hgap0.le]
    by_contra hc
    push_neg at hc
    have hlt1 : r.cx - l.cx < 1 := by
      have h1 : ⌊r.cx - l.cx⌋ < (1 : ℤ) := hc
      have := Int.floor_lt.mp h1
      push_cast at this
      linarith
    have h2gap : 2 * (r.cx - l.cx) = ((kr - kl : ℤ) : ℚ) := by
      push_cast
      linarith [hkl, hkr]
    have hm : kr - kl = 1 := by
      have h0 : (0 : ℚ) < ((kr - kl : ℤ) : ℚ) := by rw [← h2gap]; linarith
      have h2 : ((kr - kl : ℤ) : ℚ) < 2 := by rw [← h2gap]; linarith
      have h0' : (0 : ℤ) < kr - kl := by exact_mod_cast h0
      have h2' : (kr - kl : ℤ) < 2 := by exact_mod_cast h2
      omega
    have hgaphalf : r.cx - l.cx = 1/2 := by
      rw [hm] at h2gap
      push_cast at h2gap
      linarith
    have hone : ¬ 2 ∣ kl ∨ ¬ 2 ∣ kr := by omega
    have hh4 : 4 ≤ max l.bot r.bot - min l.top r.top := by
      rcases hone with ho | ho
      · have := hklodd ho
        omega
      · have := hkrodd ho
        omega
    rw [hgaphalf, div_le_iff₀ (by norm_num : (0 : ℚ) < 1/2)] at haspHi
    have hcast : (4 : ℚ) ≤ ((max l.bot r.bot - min l.top r.top : ℤ) : ℚ) := by
      exact_mod_cast hh4
    linarith
  have hxw : c.x + c.w ≤ (w : ℤ) := by
    rw [hcx, hcw, pyInt_of_nonneg hl0, pyInt_of_nonneg hgap0.le]
    have hfa : (⌊l.cx⌋ : ℚ) ≤ l.cx := Int.floor_le _
    have hfb : (⌊r.cx - l.cx⌋ : ℚ) ≤ r.cx - l.cx := Int.floor_le _
    have hsumq : ((⌊l.cx⌋ + ⌊r.cx - l.cx⌋ : ℤ) : ℚ) ≤ (w : ℚ) - 1 := by
      push_cast
      linarith [hrw]
    have hzz : (⌊l.cx⌋ + ⌊r.cx - l.cx⌋ : ℤ) ≤ (w : ℤ) - 1 := by
      exact_mod_cast hsumq
    omega
  exact ⟨hcx0, hcw1, hxw, hcy0, hch1, hyh⟩

theorem pool_valid (w h : ℕ) (hw : 1 ≤ w) (hh : 1 ≤ h)
    (comps : List (ℚ × CompStats)) (segs : List Segment)
    (hcomps : ∀ p ∈ comps, CompOK w h p.2)
    (hsegs : ∀ s ∈ segs, SegOK w h s)
    {c : Candidate}
    (hc : c ∈ colorCandidates w h (scaleOf w h) comps
        ++ addLineCandidates w h ((w : ℚ) * (h : ℚ) * (1/100)) segs) :
    0 ≤ c.x ∧ 1 ≤ c.w ∧ c.x + c.w ≤ (w : ℤ) ∧
    0 ≤ c.y ∧ 1 ≤ c.h ∧ c.y + c.h ≤ (h : ℤ) := by
  rcases mem_pool_cases hc with ⟨p, hp, he⟩ | ⟨pr, hpr, he⟩
  · obtain ⟨a1, a2, a3, a4, a5, a6⟩ :=
      processComponent_valid hw hh (hcomps p hp) he
    exact ⟨a1, by linarith, a3, a4, by linarith, a6⟩
  · have hmemv : ∀ v ∈ sortVerticals (segs.filterMap toVertical), VertOK w h v := by
      intro v hv
      have hv' : v ∈ segs.filterMap toVertical := by
        unfold sortVerticals at hv
        exact (List.perm_insertionSort _ _).subset hv
      obtain ⟨s, hsm, hss⟩ := List.mem_filterMap.mp hv'
      exact toVertical_ok (hsegs s hsm) hss
    obtain ⟨hm1, hm2⟩ := pairsAfter_mem hpr
    exact processPair_valid hw hh (hmemv _ hm1) (hmemv _ hm2) he

/-- C4: every returned detection's bbox satisfies
`0 ≤ xmin < xmax ≤ image_width` and `0 ≤ ymin < ymax ≤ image_height`,
given the facts cv2 guarantees about its outputs (components inside the
downscaled image, Hough endpoints inside the image) and a nonempty image. -/
theorem C4_bbox_within_image (w h : ℕ) (hw : 1 ≤ w) (hh : 1 ≤ h)
    (comps : List (ℚ × CompStats)) (segs : List Segment)
    (hcomps : ∀ p ∈ comps, CompOK w h p.2)
    (hsegs : ∀ s ∈ segs, SegOK w h s)
    (det : DetectionRecord)
    (hmem : det ∈ (detectDoors w h comps segs).detections) :
    0 ≤ det.bbox.xmin ∧ det.bbox.xmin < det.bbox.xmax ∧
    det.bbox.xmax ≤ (w : ℤ) ∧
    0 ≤ det.bbox.ymin ∧ det.bbox.ymin < det.bbox.ymax ∧
    det.bbox.ymax ≤ (h : ℤ) := by
  rw [detectDoors_detections] at hmem
  obtain ⟨i, c, hcr, he⟩ := mem_emitDetections hmem
  obtain ⟨-, -, -, -, hbbox, -, -⟩ := emitOne_some_elim he
  rw [findDoorRegions_def] at hcr
  obtain ⟨b1, b2, b3, b4, b5, b6⟩ :=
    pool_valid w h hw hh comps segs hcomps hsegs (mem_suppress hcr)
  rw [hbbox]
  dsimp only
  omega

/-- Closed instance of `C4_bbox_within_image` on the sample input:
`0 ≤ 125 < 175 ≤ 300` and `0 ≤ 60 < 180 ≤ 300`. -/
theorem C4_witness :
    0 ≤ (⟨"det_0", "Entrance", 99/100, ⟨125, 60, 175, 180⟩⟩ : DetectionRecord).bbox.xmin ∧
    (⟨"det_0", "Entrance", 99/100, ⟨125, 60, 175, 180⟩⟩ : DetectionRecord).bbox.xmin
      < (⟨"det_0", "Entrance", 99/100, ⟨125, 60, 175, 180⟩⟩ : DetectionRecord).bbox.xmax ∧
    (⟨"det_0", "Entrance", 99/100, ⟨125, 60, 175, 180⟩⟩ : DetectionRecord).bbox.xmax ≤ ((300 : ℕ) : ℤ) ∧
    0 ≤ (⟨"det_0", "Entrance", 99/100, ⟨125, 60, 175, 180⟩⟩ : DetectionRecord).bbox.ymin ∧
    (⟨"det_0", "Entrance", 99/100, ⟨125, 60, 175, 180⟩⟩ : DetectionRecord).bbox.ymin
      < (⟨"det_0", "Entrance", 99/100, ⟨125, 60, 175, 180⟩⟩ : DetectionRecord).bbox.ymax ∧
    (⟨"det_0", "Entrance", 99/100, ⟨125, 60, 175, 180⟩⟩ : DetectionRecord).bbox.ymax ≤ ((300 : ℕ) : ℤ) := by
  have hs : scaleOf 300 300 = 1 := by norm_num [scaleOf]
  refine C4_bbox_within_image 300 300 (by norm_num) (by norm_num)
    [(20/17, ⟨125, 60, 50, 120, 6000⟩)] [] ?_ ?_ _
    (by rw [demoDetections]; exact List.mem_singleton_self _)
  · intro p hp
    rw [List.mem_singleton] at hp
    subst hp
    exact ⟨by rw [hs]; norm_num [pyInt], by rw [hs]; norm_num [pyInt], by norm_num⟩
  · intro s hs'
    simp at hs'

end DoorDetect
